import Mathlib

/-!
Verification of the nightingale-voiceai consent-gated privacy pipeline.

This file shallowly embeds the core of the repository:
  * `src/redaction/phi_redactor.py` (class `PHIRedactor`),
  * `src/redaction/simple_phi_redactor.py` (class `SimplePHIRedactor`),
  * `src/auth/consent_manager.py` (class `ConsentManager`),
  * `src/provenance/provenance_engine.py` (class `ProvenanceEngine`),
and proves the behavioural properties claimed by the specification.

Texts are modelled as `List Char`.  The Python `re` module is embedded by a
small backtracking parser-combinator library whose enumeration order mirrors
Python's backtracking order (alternation is left-biased, quantifiers are
greedy, the first full match wins).  The character predicates `\d`, `\s`, `\w`
are modelled on their ASCII fragment; the repository only ever feeds ASCII
clinical text to the redactor, and none of the proved properties depends on
the extension of these classes to non-ASCII letters.
-/

set_option maxRecDepth 4096

namespace Voiceai

/-- A text, as Python `str`, modelled as its list of characters. -/
abbrev Str := List Char

/-- ASCII fragment of Python's `\d`. -/
def isDigitC (c : Char) : Bool := c.isDigit

/-- ASCII fragment of Python's `\s` (space, tab, LF, CR, FF, VT). -/
def isSpaceC (c : Char) : Bool :=
  c = ' ' || c = '\t' || c = '\n' || c = '\r' || c = '\x0b' || c = '\x0c'

/-- ASCII fragment of Python's `\w`, used by the `\b` word-boundary assertion. -/
def isWordC (c : Char) : Bool := c.isAlphanum || c = '_'

/-- `\w`-ness of an optional character; out-of-text counts as non-word. -/
def isWordOpt : Option Char → Bool
  | none => false
  | some c => isWordC c

/-- Python's `\b`: true iff exactly one side of the position is a word char. -/
def boundaryB (left right : Option Char) : Bool := isWordOpt left != isWordOpt right

/-!
## Backtracking regex embedding

A `Parse` sends the input suffix to the list of `(consumed, rest)` splits it
can produce, ordered by Python's backtracking preference (head = the split
the `re` engine commits to first).  `consumed ++ rest` always reassembles the
input.
-/

/-- Backtracking matcher: all `(consumed, remaining)` splits, preference order. -/
abbrev Parse := Str → List (Str × Str)

/-- Match a single character of the class `p`. -/
def chC (p : Char → Bool) : Parse := fun cs =>
  match cs with
  | [] => []
  | c :: rest => if p c then [([c], rest)] else []

/-- Match the empty string. -/
def epsP : Parse := fun cs => [([], cs)]

/-- Sequencing; outer results follow the left parser's preference order. -/
def seqP (a b : Parse) : Parse := fun cs =>
  (a cs).flatMap (fun ur => (b ur.2).map (fun vr => (ur.1 ++ vr.1, vr.2)))

/-- Left-biased alternation, as Python `|`. -/
def altP (a b : Parse) : Parse := fun cs => a cs ++ b cs

/-- Greedy `?`: prefer consuming. -/
def optP (a : Parse) : Parse := altP a epsP

/-- Greedy `*` over a character class: longest split first. -/
def starC (p : Char → Bool) : Parse
  | [] => [([], [])]
  | c :: rest =>
    if p c then (starC p rest).map (fun ur => (c :: ur.1, ur.2)) ++ [([], c :: rest)]
    else [([], c :: rest)]

/-- Greedy `{0,k}` over a character class: longest split first. -/
def upToC (p : Char → Bool) : Nat → Parse
  | 0 => epsP
  | k + 1 => fun cs =>
    match cs with
    | [] => [([], [])]
    | c :: rest =>
      if p c then (upToC p k rest).map (fun ur => (c :: ur.1, ur.2)) ++ [([], c :: rest)]
      else [([], c :: rest)]

/-- Exactly `n` characters of class `p`. -/
def repC (p : Char → Bool) : Nat → Parse
  | 0 => epsP
  | n + 1 => seqP (chC p) (repC p n)

/-- Greedy `{lo,hi}` over a character class. -/
def repRangeC (p : Char → Bool) (lo hi : Nat) : Parse :=
  seqP (repC p lo) (upToC p (hi - lo))

/-- Greedy `+` over a character class. -/
def plusC (p : Char → Bool) : Parse := seqP (chC p) (starC p)

/-- Case-insensitive literal (Python `re.IGNORECASE`), one combinator per char. -/
def litCIAux : List Char → Parse
  | [] => epsP
  | k :: ks => seqP (chC (fun c => c.toLower == k.toLower)) (litCIAux ks)

/-- Case-insensitive literal from a string. -/
def litCI (s : String) : Parse := litCIAux s.data

/-- Case-sensitive literal, one combinator per char. -/
def litCSAux : List Char → Parse
  | [] => epsP
  | k :: ks => seqP (chC (fun c => c == k)) (litCSAux ks)

/-- Case-sensitive literal from a string. -/
def litCS (s : String) : Parse := litCSAux s.data

/-!
## The six `phi_patterns` of both redactors (compiled with `re.IGNORECASE`)

Source: `PHIRedactor.__init__` / `SimplePHIRedactor.__init__`.
Each regex below carries a `\b` at both ends; those are handled by
`matchAt`, the combinators encode the part between the two `\b`.
-/

/-- `'-'` separator class used by the ssn pattern. -/
def isDashC (c : Char) : Bool := c = '-'

/-- `[-.\s]` separator class of the phone pattern. -/
def isPhoneSepC (c : Char) : Bool := c = '-' || c = '.' || isSpaceC c

/-- `ssn`: `\d{3}-?\d{2}-?\d{4}` (between the `\b`s). -/
def ssnCore : Parse :=
  seqP (repC isDigitC 3)
    (seqP (optP (chC isDashC))
      (seqP (repC isDigitC 2)
        (seqP (optP (chC isDashC)) (repC isDigitC 4))))

/-- `phone`: `(?:\+?1[-.\s]?)?\(?([0-9]{3})\)?[-.\s]?([0-9]{3})[-.\s]?([0-9]{4})`. -/
def phoneCore : Parse :=
  seqP (optP (seqP (optP (chC (fun c => c = '+'))) (seqP (chC (fun c => c = '1')) (optP (chC isPhoneSepC)))))
    (seqP (optP (chC (fun c => c = '(')))
      (seqP (repC isDigitC 3)
        (seqP (optP (chC (fun c => c = ')')))
          (seqP (optP (chC isPhoneSepC))
            (seqP (repC isDigitC 3)
              (seqP (optP (chC isPhoneSepC)) (repC isDigitC 4)))))))

/-- `[A-Za-z0-9._%+-]`, local part of the email pattern. -/
def isEmailLocalC (c : Char) : Bool :=
  c.isAlphanum || c = '.' || c = '_' || c = '%' || c = '+' || c = '-'

/-- `[A-Za-z0-9.-]`, domain part of the email pattern. -/
def isEmailDomainC (c : Char) : Bool := c.isAlphanum || c = '.' || c = '-'

/-- `[A-Z|a-z]` — note the literal `'|'` inside the class, kept faithfully. -/
def isTldC (c : Char) : Bool := c.isAlpha || c = '|'

/-- `email`: `[A-Za-z0-9._%+-]+@[A-Za-z0-9.-]+\.[A-Z|a-z]{2,}`. -/
def emailCore : Parse :=
  seqP (plusC isEmailLocalC)
    (seqP (chC (fun c => c = '@'))
      (seqP (plusC isEmailDomainC)
        (seqP (chC (fun c => c = '.'))
          (seqP (repC isTldC 2) (starC isTldC)))))

/-- Slash-or-dash separator class of the date pattern. -/
def isDateSepC (c : Char) : Bool := c = '/' || c = '-'

/-- `(?:0[1-9]|1[0-2])` month group. -/
def dateMonth : Parse :=
  altP (seqP (chC (fun c => c = '0')) (chC (fun c => '1' ≤ c && c ≤ '9')))
    (seqP (chC (fun c => c = '1')) (chC (fun c => '0' ≤ c && c ≤ '2')))

/-- `(?:0[1-9]|[12]\d|3[01])` day group. -/
def dateDay : Parse :=
  altP (seqP (chC (fun c => c = '0')) (chC (fun c => '1' ≤ c && c ≤ '9')))
    (altP (seqP (chC (fun c => c = '1' || c = '2')) (chC isDigitC))
      (seqP (chC (fun c => c = '3')) (chC (fun c => c = '0' || c = '1'))))

/-- `date_birth`: month, slash-or-dash, day, slash-or-dash, `(?:19|20)\d{2}`. -/
def dateBirthCore : Parse :=
  seqP dateMonth
    (seqP (chC isDateSepC)
      (seqP dateDay
        (seqP (chC isDateSepC)
          (seqP (altP (litCI "19") (litCI "20")) (repC isDigitC 2)))))

/-- `mrn`: `(?:MRN|mrn|Medical Record Number)[\s:]*(\d{6,10})`. -/
def mrnCore : Parse :=
  seqP (altP (litCI "MRN") (altP (litCI "mrn") (litCI "Medical Record Number")))
    (seqP (starC (fun c => isSpaceC c || c = ':')) (repRangeC isDigitC 6 10))

/-- `[A-Za-z0-9\s,]` street-name class of the address pattern. -/
def isAddrC (c : Char) : Bool := c.isAlphanum || isSpaceC c || c = ','

/-- Street suffix alternation, in the source's order. -/
def addrSuffix : Parse :=
  [litCI "Street", litCI "St", litCI "Avenue", litCI "Ave", litCI "Road", litCI "Rd",
   litCI "Boulevard", litCI "Blvd", litCI "Lane", litCI "Ln", litCI "Drive", litCI "Dr",
   litCI "Court", litCI "Ct", litCI "Place", litCI "Pl"].foldr altP (fun _ => [])

/-- `address`: `\d+\s+[A-Za-z0-9\s,]+(?:Street|St|...|Pl)`. -/
def addressCore : Parse :=
  seqP (plusC isDigitC) (seqP (plusC isSpaceC) (seqP (plusC isAddrC) addrSuffix))

/-!
## `re.finditer` with `\b`-delimited patterns

All six patterns (and the three name patterns of the simple redactor) have
the shape `\b core \b`.  `matchAt` checks the leading boundary at the current
position, runs the core, and commits to the first backtracking alternative
whose trailing position is also a word boundary — exactly the order in which
Python's engine succeeds.
-/

/-- Last consumed character, falling back to the character left of the match. -/
def lastConsumed (prev : Option Char) (u : Str) : Option Char :=
  match u.getLast? with
  | some c => some c
  | none => prev

/-- Try to match `\b core \b` at the current position (`prev` = char to the left). -/
def matchAt (core : Parse) (prev : Option Char) (cs : Str) : Option (Str × Str) :=
  if boundaryB prev cs.head? then
    (core cs).find? (fun ur => boundaryB (lastConsumed prev ur.1) ur.2.head?)
  else none

/--
`re.finditer` scan: try the pattern at every position, left to right; after a
match, resume right after it.  Structured with explicit fuel so that the
definition is structurally recursive (and hence kernel-computable); the fuel
`cs.length` supplied by `finditer` is always sufficient because every step
either consumes a match of length `≥ 1` or advances one position.
Returns `(position, matched substring)` pairs in order.
-/
def finditerF (core : Parse) : Nat → Option Char → Str → Nat → List (Nat × Str)
  | 0, _, _, _ => []
  | _ + 1, _, [], _ => []
  | fuel + 1, prev, c :: rest, pos =>
    match matchAt core prev (c :: rest) with
    | some (u, _) =>
      let n := max u.length 1
      (pos, u) :: finditerF core fuel (lastConsumed (some c) u) ((c :: rest).drop n) (pos + n)
    | none => finditerF core fuel (some c) rest (pos + 1)

/-- All matches of `\b core \b` in `cs`, as Python `re.finditer`. -/
def finditer (core : Parse) (cs : Str) : List (Nat × Str) :=
  finditerF core cs.length none cs 0

/-!
## Detection and replacement (`phi_redactor.py` / `simple_phi_redactor.py`)
-/

/-- One entry of `detected_phi`, mirroring the Python detection dict. -/
structure Detection where
  type : String
  original : Str
  replacement : Str
  start_pos : Nat
  end_pos : Nat
  method : String
  deriving Repr, DecidableEq

/-- `PHIRedactor.replacements` (also `SimplePHIRedactor`'s, which drops the
entity keys and adds `name`): `dict.get(phi_type, '[PHI_REDACTED]')`. -/
def replacements (phi_type : String) : Str :=
  if phi_type = "ssn" then "[SSN_REDACTED]".data
  else if phi_type = "phone" then "[PHONE_REDACTED]".data
  else if phi_type = "email" then "[EMAIL_REDACTED]".data
  else if phi_type = "date_birth" then "[DOB_REDACTED]".data
  else if phi_type = "mrn" then "[MRN_REDACTED]".data
  else if phi_type = "address" then "[ADDRESS_REDACTED]".data
  else if phi_type = "name" then "[NAME_REDACTED]".data
  else "[PHI_REDACTED]".data

/-- The `phi_patterns` dict, in insertion (= iteration) order. -/
def phiPatterns : List (String × Parse) :=
  [("ssn", ssnCore), ("phone", phoneCore), ("email", emailCore),
   ("date_birth", dateBirthCore), ("mrn", mrnCore), ("address", addressCore)]

/-- `PHIRedactor._detect_patterns` (identical in `SimplePHIRedactor`):
run every pattern over the text and collect the detection dicts in order. -/
def detectPatterns (text : Str) : List Detection :=
  phiPatterns.flatMap (fun pt =>
    (finditer pt.2 text).map (fun m =>
      { type := pt.1, original := m.2, replacement := replacements pt.1,
        start_pos := m.1, end_pos := m.1 + m.2.length, method := "regex" }))

/-- `PHIRedactor._detect_entities`: the spaCy path is disabled
(`nlp_available = False`), the function always returns the empty list. -/
def detectEntities (_text : Str) : List Detection := []

/--
Python `str.replace(s, t)`: replace every non-overlapping occurrence of `s`
left to right.  Explicit fuel keeps the recursion structural; the caller
passes `text.length + 1`, which is always sufficient since every recursive
call strictly shrinks the text.
-/
def replaceAllF : Nat → Str → Str → Str → Str
  | 0, _, _, text => text
  | _ + 1, s, t, [] => if s = [] then t else []
  | fuel + 1, s, t, c :: rest =>
    if s ≠ [] ∧ s.isPrefixOf (c :: rest) then
      t ++ replaceAllF fuel s t ((c :: rest).drop s.length)
    else if s = [] then t ++ c :: replaceAllF fuel s t rest
    else c :: replaceAllF fuel s t rest

/-- Python `text.replace(s, t)`. -/
def replaceAll (s t text : Str) : Str := replaceAllF (text.length + 1) s t text

/-- The redaction loop body: `redacted_text.replace(d['original'], d['replacement'])`
folded over a detection list. -/
def applyDetections (text : Str) (ds : List Detection) : Str :=
  ds.foldl (fun acc d => replaceAll d.original d.replacement acc) text

/-- `RedactionResult` dataclass (identical in both redactor modules). -/
structure RedactionResult where
  original_text : Str
  redacted_text : Str
  detected_phi : List Detection
  confidence_score : ℚ
  deriving Repr, DecidableEq

/-- The fail-closed sentinel built in the `except` branch of both
`redact_phi` implementations. -/
def failClosedResult (text : Str) : RedactionResult :=
  { original_text := text, redacted_text := "[TEXT_REDACTION_FAILED]".data,
    detected_phi := [], confidence_score := 0 }

/-- Weight of a `regex` detection in `PHIRedactor._calculate_confidence`. -/
def regexWeight : ℚ := 9 / 10

/-- Weight of an `nlp` detection in `PHIRedactor._calculate_confidence`. -/
def nlpWeight : ℚ := 7 / 10

/-- `PHIRedactor._calculate_confidence(detections, original_text)`.  Python
floats are modelled as exact rationals; every value that actually arises
(`1.0`, `0.0`, `0.9`) is exactly representable in binary floating point, so
the model and the float computation agree on the claims proved below. -/
def calculateConfidence (detections : List Detection) (_original_text : Str) : ℚ :=
  if detections = [] then 1
  else
    let regexDetections := (detections.filter (fun d => d.method = "regex")).length
    let nlpDetections := (detections.filter (fun d => d.method = "nlp")).length
    min 1 ((regexWeight * regexDetections + nlpWeight * nlpDetections) / detections.length)

/--
`PHIRedactor.redact_phi` with the two internal detector calls abstracted:
the Python body runs inside a `try`, and any exception raised by a detector
short-circuits to the fail-closed sentinel (`except` branch, lines 113-121).
A detector that raises is modelled as returning `.error`.
-/
def redactPhiWith (dp de : Str → Except Unit (List Detection)) (text : Str) :
    RedactionResult :=
  match dp text with
  | .error _ => failClosedResult text
  | .ok patternDetections =>
    let t1 := applyDetections text patternDetections
    match de t1 with
    | .error _ => failClosedResult text
    | .ok entityDetections =>
      let t2 := applyDetections t1 entityDetections
      { original_text := text, redacted_text := t2,
        detected_phi := patternDetections ++ entityDetections,
        confidence_score := calculateConfidence (patternDetections ++ entityDetections) text }

/-- `PHIRedactor.redact_phi` with the actual (non-raising) detectors. -/
def redactPhi (text : Str) : RedactionResult :=
  redactPhiWith (fun t => .ok (detectPatterns t)) (fun t => .ok (detectEntities t)) text

/-- `PHIRedactor.validate_redaction`: re-run detection on the redacted text
only; true iff nothing is detected.  The `original` argument is unused. -/
def validateRedaction (_original redacted : Str) : Bool :=
  ((redactPhi redacted).detected_phi).isEmpty

/-!
## `SimplePHIRedactor` — the name detectors

`name_patterns` are compiled without `re.IGNORECASE`; all three carry `\b` at
both ends.
-/

/-- `[A-Z]` (case-sensitive). -/
def isUpperC (c : Char) : Bool := c.isUpper

/-- `[a-z]` (case-sensitive). -/
def isLowerC (c : Char) : Bool := c.isLower

/-- `[A-Z][a-z]+\s+[A-Z][a-z]+` — First Last. -/
def nameFirstLastCore : Parse :=
  seqP (chC isUpperC)
    (seqP (plusC isLowerC)
      (seqP (plusC isSpaceC) (seqP (chC isUpperC) (plusC isLowerC))))

/-- `Dr\.\s+[A-Z][a-z]+` — Dr. Name. -/
def nameDrCore : Parse :=
  seqP (litCS "Dr.") (seqP (plusC isSpaceC) (seqP (chC isUpperC) (plusC isLowerC)))

/-- `Patient\s+[A-Z][a-z]+` — Patient Name. -/
def namePatientCore : Parse :=
  seqP (litCS "Patient") (seqP (plusC isSpaceC) (seqP (chC isUpperC) (plusC isLowerC)))

/-- `SimplePHIRedactor.name_patterns`, in order. -/
def namePatterns : List Parse := [nameFirstLastCore, nameDrCore, namePatientCore]

/-- `SimplePHIRedactor._is_medical_term`: membership of the lowercased text
in a fixed term set. -/
def isMedicalTerm (text : Str) : Bool :=
  let lowered := text.map Char.toLower
  ["patient reports", "doctor smith", "nurse jones", "headache pain",
   "blood pressure", "heart rate", "pain level", "medical history"].any
    (fun s => lowered = s.data)

/-- `SimplePHIRedactor._detect_names`: run the three name patterns, skipping
matches that are common medical terms. -/
def detectNames (text : Str) : List Detection :=
  namePatterns.flatMap (fun pat =>
    ((finditer pat text).filter (fun m => ¬ isMedicalTerm m.2)).map (fun m =>
      { type := "name", original := m.2, replacement := replacements "name",
        start_pos := m.1, end_pos := m.1 + m.2.length, method := "name_pattern" }))

/-- `SimplePHIRedactor.redact_phi` with abstracted (possibly raising)
detectors; its `except` branch (lines 96-103) is the same sentinel. -/
def simpleRedactPhiWith (dp dn : Str → Except Unit (List Detection)) (text : Str) :
    RedactionResult :=
  match dp text with
  | .error _ => failClosedResult text
  | .ok patternDetections =>
    let t1 := applyDetections text patternDetections
    match dn t1 with
    | .error _ => failClosedResult text
    | .ok nameDetections =>
      let t2 := applyDetections t1 nameDetections
      { original_text := text, redacted_text := t2,
        detected_phi := patternDetections ++ nameDetections,
        -- `confidence = 1.0 if detected_phi else 1.0` — literally always 1.0
        confidence_score := if (patternDetections ++ nameDetections) = [] then 1 else 1 }

/-- `SimplePHIRedactor.redact_phi` with the actual detectors. -/
def simpleRedactPhi (text : Str) : RedactionResult :=
  simpleRedactPhiWith (fun t => .ok (detectPatterns t)) (fun t => .ok (detectNames t)) text

/-- `SimplePHIRedactor.validate_redaction`; `original` unused. -/
def simpleValidateRedaction (_original redacted : Str) : Bool :=
  ((simpleRedactPhi redacted).detected_phi).isEmpty

/-!
## Why redacted text never contains a detected original

Every substring any of the nine detectors can report is *good*: nonempty,
bracket-free, and containing a digit, an `'@'`, or a lowercase letter.
Every replacement token has the shape `'[' … ']'` and contains no good
character.  Replacing a good string by such a token can therefore neither
leave the string behind nor manufacture a new occurrence of any good string,
which is exactly the invariant claimed for `redact`.
-/

/-- A character a replacement token can never contain. -/
def goodCh (c : Char) : Prop := c.isDigit = true ∨ c = '@' ∨ c.isLower = true

instance (c : Char) : Decidable (goodCh c) := by unfold goodCh; infer_instance

/-- Bracket-freeness of a character. -/
def noBrCh (c : Char) : Prop := c ≠ '[' ∧ c ≠ ']'

instance (c : Char) : Decidable (noBrCh c) := by unfold noBrCh; infer_instance

/-- Shape of every string a detector can report. -/
def GoodStr (u : Str) : Prop :=
  u ≠ [] ∧ (∀ c ∈ u, noBrCh c) ∧ ∃ c ∈ u, goodCh c

/-- Shape of every replacement token. -/
def TokShape (t : Str) : Prop :=
  (∃ mid, t = '[' :: mid ++ [']']) ∧ ∀ c ∈ t, ¬ goodCh c

theorem not_infix_of_good {u t : Str} (hu : GoodStr u) (ht : TokShape t) :
    ¬ u <:+: t := by
  rcases hu with ⟨-, -, c, hc, hgood⟩
  intro h
  exact ht.2 c (h.subset hc) hgood

theorem prefix_append_cases {α : Type} {v : List α} :
    ∀ {a b : List α}, v <+: a ++ b → v <+: a ∨ ∃ b1, b1 <+: b ∧ v = a ++ b1 := by
  intro a
  induction a generalizing v with
  | nil => intro b h; exact Or.inr ⟨v, h, rfl⟩
  | cons x a2 ih =>
    intro b h
    match v, h with
    | [], _ => exact Or.inl List.nil_prefix
    | y :: v2, h =>
      rw [List.cons_append, List.cons_prefix_cons] at h
      rcases h with ⟨rfl, h2⟩
      rcases ih h2 with h3 | ⟨b1, hb1, rfl⟩
      · exact Or.inl (List.cons_prefix_cons.mpr ⟨rfl, h3⟩)
      · exact Or.inr ⟨b1, hb1, rfl⟩

theorem infix_append_cases {α : Type} {u : List α} :
    ∀ {a b : List α}, u <:+: a ++ b →
      u <:+: a ∨ u <:+: b ∨
        ∃ a2 b1, a2 ≠ [] ∧ b1 ≠ [] ∧ a2 <:+ a ∧ b1 <+: b ∧ u = a2 ++ b1 := by
  intro a
  induction a with
  | nil => intro b h; exact Or.inr (Or.inl h)
  | cons x a2 ih =>
    intro b h
    rw [List.cons_append, List.infix_cons_iff] at h
    rcases h with h | h
    · match u, h with
      | [], _ => exact Or.inl List.nil_infix
      | y :: u2, h =>
        rw [List.cons_prefix_cons] at h
        rcases h with ⟨rfl, h2⟩
        rcases prefix_append_cases h2 with h3 | ⟨b1, hb1, rfl⟩
        · exact Or.inl (List.cons_prefix_cons.mpr ⟨rfl, h3⟩).isInfix
        · match b1, hb1 with
          | [], _ =>
            refine Or.inl (List.IsPrefix.isInfix ?_)
            rw [List.append_nil]
          | z :: b2, hb1 =>
            exact Or.inr (Or.inr ⟨y :: a2, z :: b2, by simp, by simp,
              List.suffix_refl _, hb1, by simp⟩)
    · rcases ih h with h3 | h3 | ⟨a3, b1, hne, hne2, hsuf, hpre, rfl⟩
      · exact Or.inl (h3.trans (List.suffix_cons x a2).isInfix)
      · exact Or.inr (Or.inl h3)
      · exact Or.inr (Or.inr ⟨a3, b1, hne, hne2, hsuf.trans (List.suffix_cons x a2),
          hpre, rfl⟩)

theorem mem_of_getLast?_some {α : Type} {l : List α} {x : α}
    (h : l.getLast? = some x) : x ∈ l := by
  rcases List.mem_getLast?_eq_getLast (l := l) (x := x) (by rw [h]; exact rfl) with ⟨hne, rfl⟩
  exact List.getLast_mem hne

theorem close_bracket_mem_of_suffix {t a2 : Str} (ht : TokShape t)
    (hs : a2 <:+ t) (hne : a2 ≠ []) : ']' ∈ a2 := by
  rcases ht.1 with ⟨mid, rfl⟩
  rcases hs with ⟨pre, hpre⟩
  have hlast : a2.getLast? = some ']' := by
    have h1 : (pre ++ a2).getLast? = a2.getLast? := List.getLast?_append_of_ne_nil pre hne
    have h2 : ('[' :: mid ++ [']']).getLast? = some ']' := List.getLast?_concat _
    rw [hpre] at h1
    rw [← h1, h2]
  exact mem_of_getLast?_some hlast

/-!
### Soundness predicates for the regex embedding

`PChars p P`: every character a parser consumes satisfies `P`.
`PNonNil p`: the parser never matches the empty string.
`PHasGood p`: every match contains a good character.
These are proved compositionally over the combinators and then instantiated
for each of the nine patterns.
-/

/-- Every consumed character satisfies `P`. -/
def PChars (p : Parse) (P : Char → Prop) : Prop :=
  ∀ cs ur, ur ∈ p cs → ∀ c ∈ ur.1, P c

/-- The parser never matches the empty string. -/
def PNonNil (p : Parse) : Prop := ∀ cs ur, ur ∈ p cs → ur.1 ≠ []

/-- Every match contains a good character. -/
def PHasGood (p : Parse) : Prop := ∀ cs ur, ur ∈ p cs → ∃ c ∈ ur.1, goodCh c

theorem pchars_mono {p : Parse} {P Q : Char → Prop} (h : PChars p P)
    (hpq : ∀ c, P c → Q c) : PChars p Q :=
  fun cs ur hur c hc => hpq c (h cs ur hur c hc)

theorem chC_chars (q : Char → Bool) : PChars (chC q) (fun c => q c = true) := by
  intro cs ur hur c hc
  match cs, hur with
  | x :: rest, hur =>
    simp only [chC] at hur
    by_cases hq : q x = true
    · rw [if_pos hq] at hur
      simp only [List.mem_singleton] at hur
      subst hur
      simp only [List.mem_singleton] at hc
      subst hc
      exact hq
    · rw [if_neg hq] at hur
      simp at hur

theorem chC_nonNil (q : Char → Bool) : PNonNil (chC q) := by
  intro cs ur hur
  match cs, hur with
  | x :: rest, hur =>
    simp only [chC] at hur
    by_cases hq : q x = true
    · rw [if_pos hq] at hur
      simp only [List.mem_singleton] at hur
      subst hur
      simp
    · rw [if_neg hq] at hur
      simp at hur

theorem chC_hasGood (q : Char → Bool) (hq : ∀ c, q c = true → goodCh c) :
    PHasGood (chC q) := by
  intro cs ur hur
  match cs, hur with
  | x :: rest, hur =>
    simp only [chC] at hur
    by_cases hqx : q x = true
    · rw [if_pos hqx] at hur
      simp only [List.mem_singleton] at hur
      subst hur
      exact ⟨x, List.mem_singleton_self x, hq x hqx⟩
    · rw [if_neg hqx] at hur
      simp at hur

theorem epsP_chars (P : Char → Prop) : PChars epsP P := by
  intro cs ur hur c hc
  simp only [epsP, List.mem_singleton] at hur
  subst hur
  simp at hc

theorem seqP_mem {a b : Parse} {cs : Str} {ur : Str × Str}
    (h : ur ∈ seqP a b cs) :
    ∃ u1 r1 u2 r2, (u1, r1) ∈ a cs ∧ (u2, r2) ∈ b r1 ∧ ur = (u1 ++ u2, r2) := by
  simp only [seqP, List.mem_flatMap, List.mem_map] at h
  rcases h with ⟨⟨u1, r1⟩, h1, ⟨u2, r2⟩, h2, h3⟩
  exact ⟨u1, r1, u2, r2, h1, h2, h3.symm⟩

theorem seqP_chars {a b : Parse} {P : Char → Prop} (ha : PChars a P)
    (hb : PChars b P) : PChars (seqP a b) P := by
  intro cs ur hur c hc
  rcases seqP_mem hur with ⟨u1, r1, u2, r2, h1, h2, rfl⟩
  rcases List.mem_append.mp hc with hc | hc
  · exact ha cs (u1, r1) h1 c hc
  · exact hb r1 (u2, r2) h2 c hc

theorem seqP_nonNil_left {a b : Parse} (ha : PNonNil a) : PNonNil (seqP a b) := by
  intro cs ur hur
  rcases seqP_mem hur with ⟨u1, r1, u2, r2, h1, h2, rfl⟩
  have := ha cs (u1, r1) h1
  simp only [ne_eq, List.append_eq_nil]
  tauto

theorem seqP_nonNil_right {a b : Parse} (hb : PNonNil b) : PNonNil (seqP a b) := by
  intro cs ur hur
  rcases seqP_mem hur with ⟨u1, r1, u2, r2, h1, h2, rfl⟩
  have := hb r1 (u2, r2) h2
  simp only [ne_eq, List.append_eq_nil]
  tauto

theorem seqP_hasGood_left {a b : Parse} (ha : PHasGood a) : PHasGood (seqP a b) := by
  intro cs ur hur
  rcases seqP_mem hur with ⟨u1, r1, u2, r2, h1, h2, rfl⟩
  rcases ha cs (u1, r1) h1 with ⟨c, hc, hg⟩
  exact ⟨c, List.mem_append_left u2 hc, hg⟩

theorem seqP_hasGood_right {a b : Parse} (hb : PHasGood b) : PHasGood (seqP a b) := by
  intro cs ur hur
  rcases seqP_mem hur with ⟨u1, r1, u2, r2, h1, h2, rfl⟩
  rcases hb r1 (u2, r2) h2 with ⟨c, hc, hg⟩
  exact ⟨c, List.mem_append_right u1 hc, hg⟩

theorem altP_chars {a b : Parse} {P : Char → Prop} (ha : PChars a P)
    (hb : PChars b P) : PChars (altP a b) P := by
  intro cs ur hur
  rcases List.mem_append.mp hur with h | h
  · exact ha cs ur h
  · exact hb cs ur h

theorem altP_nonNil {a b : Parse} (ha : PNonNil a) (hb : PNonNil b) :
    PNonNil (altP a b) := by
  intro cs ur hur
  rcases List.mem_append.mp hur with h | h
  · exact ha cs ur h
  · exact hb cs ur h

theorem altP_hasGood {a b : Parse} (ha : PHasGood a) (hb : PHasGood b) :
    PHasGood (altP a b) := by
  intro cs ur hur
  rcases List.mem_append.mp hur with h | h
  · exact ha cs ur h
  · exact hb cs ur h

theorem optP_chars {a : Parse} {P : Char → Prop} (ha : PChars a P) :
    PChars (optP a) P := altP_chars ha (epsP_chars P)

theorem starC_chars (q : Char → Bool) : PChars (starC q) (fun c => q c = true) := by
  intro cs
  induction cs with
  | nil =>
    intro ur hur c hc
    simp only [starC, List.mem_singleton] at hur
    subst hur
    simp at hc
  | cons x rest ih =>
    intro ur hur c hc
    simp only [starC] at hur
    by_cases hq : q x = true
    · rw [if_pos hq] at hur
      rcases List.mem_append.mp hur with h | h
      · simp only [List.mem_map] at h
        rcases h with ⟨⟨u2, r2⟩, h2, rfl⟩
        simp only [List.mem_cons] at hc
        rcases hc with rfl | hc
        · exact hq
        · exact ih (u2, r2) h2 c hc
      · simp only [List.mem_singleton] at h
        subst h
        simp at hc
    · rw [if_neg hq] at hur
      simp only [List.mem_singleton] at hur
      subst hur
      simp at hc

theorem upToC_chars (q : Char → Bool) :
    ∀ k, PChars (upToC q k) (fun c => q c = true) := by
  intro k
  induction k with
  | zero => exact epsP_chars _
  | succ k ih =>
    intro cs ur hur c hc
    match cs, hur with
    | [], hur =>
      simp only [upToC, List.mem_singleton] at hur
      subst hur
      simp at hc
    | x :: rest, hur =>
      simp only [upToC] at hur
      by_cases hq : q x = true
      · rw [if_pos hq] at hur
        rcases List.mem_append.mp hur with h | h
        · simp only [List.mem_map] at h
          rcases h with ⟨⟨u2, r2⟩, h2, rfl⟩
          simp only [List.mem_cons] at hc
          rcases hc with rfl | hc
          · exact hq
          · exact ih rest (u2, r2) h2 c hc
        · simp only [List.mem_singleton] at h
          subst h
          simp at hc
      · rw [if_neg hq] at hur
        simp only [List.mem_singleton] at hur
        subst hur
        simp at hc

theorem repC_chars (q : Char → Bool) :
    ∀ n, PChars (repC q n) (fun c => q c = true) := by
  intro n
  induction n with
  | zero => exact epsP_chars _
  | succ n ih => exact seqP_chars (chC_chars q) ih

theorem repC_succ_nonNil (q : Char → Bool) (n : Nat) : PNonNil (repC q (n + 1)) :=
  seqP_nonNil_left (chC_nonNil q)

theorem repC_succ_hasGood (q : Char → Bool) (hq : ∀ c, q c = true → goodCh c)
    (n : Nat) : PHasGood (repC q (n + 1)) :=
  seqP_hasGood_left (chC_hasGood q hq)

theorem repRangeC_chars (q : Char → Bool) (lo hi : Nat) :
    PChars (repRangeC q lo hi) (fun c => q c = true) :=
  seqP_chars (repC_chars q lo) (upToC_chars q (hi - lo))

theorem plusC_chars (q : Char → Bool) : PChars (plusC q) (fun c => q c = true) :=
  seqP_chars (chC_chars q) (starC_chars q)

theorem plusC_nonNil (q : Char → Bool) : PNonNil (plusC q) :=
  seqP_nonNil_left (chC_nonNil q)

theorem plusC_hasGood (q : Char → Bool) (hq : ∀ c, q c = true → goodCh c) :
    PHasGood (plusC q) :=
  seqP_hasGood_left (chC_hasGood q hq)

theorem litCIAux_chars (l : List Char) :
    PChars (litCIAux l) (fun c => ∃ k ∈ l, c.toLower = k.toLower) := by
  induction l with
  | nil => exact epsP_chars _
  | cons k ks ih =>
    refine seqP_chars (pchars_mono (chC_chars _) ?_) (pchars_mono ih ?_)
    · intro c hc
      exact ⟨k, List.mem_cons_self k ks, by simpa using hc⟩
    · intro c ⟨k2, hk2, hc⟩
      exact ⟨k2, List.mem_cons_of_mem k hk2, hc⟩

theorem litCIAux_nonNil (k : Char) (ks : List Char) :
    PNonNil (litCIAux (k :: ks)) := seqP_nonNil_left (chC_nonNil _)

theorem litCSAux_chars (l : List Char) :
    PChars (litCSAux l) (fun c => c ∈ l) := by
  induction l with
  | nil => exact epsP_chars _
  | cons k ks ih =>
    refine seqP_chars (pchars_mono (chC_chars _) ?_) (pchars_mono ih ?_)
    · intro c hc
      have : c = k := by simpa using hc
      subst this
      exact List.mem_cons_self c ks
    · intro c hc
      exact List.mem_cons_of_mem k hc

theorem litCSAux_nonNil (k : Char) (ks : List Char) :
    PNonNil (litCSAux (k :: ks)) := seqP_nonNil_left (chC_nonNil _)

theorem class_nb (q : Char → Bool) (h1 : q '[' = false) (h2 : q ']' = false) :
    ∀ c, q c = true → noBrCh c := by
  intro c hc
  constructor <;> rintro rfl
  · rw [h1] at hc; cases hc
  · rw [h2] at hc; cases hc

theorem chC_nb (q : Char → Bool) (h1 : q '[' = false) (h2 : q ']' = false) :
    PChars (chC q) noBrCh := pchars_mono (chC_chars q) (class_nb q h1 h2)

theorem optC_nb (q : Char → Bool) (h1 : q '[' = false) (h2 : q ']' = false) :
    PChars (optP (chC q)) noBrCh := optP_chars (chC_nb q h1 h2)

theorem repC_nb (q : Char → Bool) (h1 : q '[' = false) (h2 : q ']' = false) (n : Nat) :
    PChars (repC q n) noBrCh := pchars_mono (repC_chars q n) (class_nb q h1 h2)

theorem starC_nb (q : Char → Bool) (h1 : q '[' = false) (h2 : q ']' = false) :
    PChars (starC q) noBrCh := pchars_mono (starC_chars q) (class_nb q h1 h2)

theorem upToC_nb (q : Char → Bool) (h1 : q '[' = false) (h2 : q ']' = false) (k : Nat) :
    PChars (upToC q k) noBrCh := pchars_mono (upToC_chars q k) (class_nb q h1 h2)

theorem plusC_nb (q : Char → Bool) (h1 : q '[' = false) (h2 : q ']' = false) :
    PChars (plusC q) noBrCh := pchars_mono (plusC_chars q) (class_nb q h1 h2)

theorem repRangeC_nb (q : Char → Bool) (h1 : q '[' = false) (h2 : q ']' = false)
    (lo hi : Nat) : PChars (repRangeC q lo hi) noBrCh :=
  pchars_mono (repRangeC_chars q lo hi) (class_nb q h1 h2)

theorem litCIAux_nb (l : List Char)
    (h : ∀ k ∈ l, k.toLower ≠ '[' ∧ k.toLower ≠ ']') :
    PChars (litCIAux l) noBrCh := by
  refine pchars_mono (litCIAux_chars l) ?_
  rintro c ⟨k, hk, hck⟩
  constructor <;> rintro rfl
  · exact (h k hk).1 (by rw [← hck]; decide)
  · exact (h k hk).2 (by rw [← hck]; decide)

theorem litCSAux_nb (l : List Char) (h : ∀ k ∈ l, noBrCh k) :
    PChars (litCSAux l) noBrCh :=
  pchars_mono (litCSAux_chars l) (fun c hc => h c hc)

theorem digit_good : ∀ c, isDigitC c = true → goodCh c := fun _ h => Or.inl h

theorem lower_good : ∀ c, isLowerC c = true → goodCh c := fun _ h => Or.inr (Or.inr h)

/-- `GoodStr`-ness of every match, bundled per pattern. -/
def PGood (p : Parse) : Prop := PChars p noBrCh ∧ PNonNil p ∧ PHasGood p

theorem ssnCore_good : PGood ssnCore := by
  refine ⟨?_, ?_, ?_⟩
  · exact seqP_chars (repC_nb _ (by decide) (by decide) 3)
      (seqP_chars (optC_nb _ (by decide) (by decide))
        (seqP_chars (repC_nb _ (by decide) (by decide) 2)
          (seqP_chars (optC_nb _ (by decide) (by decide))
            (repC_nb _ (by decide) (by decide) 4))))
  · exact seqP_nonNil_left (repC_succ_nonNil _ 2)
  · exact seqP_hasGood_left (repC_succ_hasGood _ digit_good 2)

theorem phoneCore_good : PGood phoneCore := by
  refine ⟨?_, ?_, ?_⟩
  · exact seqP_chars
      (optP_chars (seqP_chars (optC_nb _ (by decide) (by decide))
        (seqP_chars (chC_nb _ (by decide) (by decide)) (optC_nb _ (by decide) (by decide)))))
      (seqP_chars (optC_nb _ (by decide) (by decide))
        (seqP_chars (repC_nb _ (by decide) (by decide) 3)
          (seqP_chars (optC_nb _ (by decide) (by decide))
            (seqP_chars (optC_nb _ (by decide) (by decide))
              (seqP_chars (repC_nb _ (by decide) (by decide) 3)
                (seqP_chars (optC_nb _ (by decide) (by decide))
                  (repC_nb _ (by decide) (by decide) 4)))))))
  · exact seqP_nonNil_right (seqP_nonNil_right (seqP_nonNil_left (repC_succ_nonNil _ 2)))
  · exact seqP_hasGood_right (seqP_hasGood_right (seqP_hasGood_left
      (repC_succ_hasGood _ digit_good 2)))

theorem emailCore_good : PGood emailCore := by
  refine ⟨?_, ?_, ?_⟩
  · exact seqP_chars (plusC_nb _ (by decide) (by decide))
      (seqP_chars (chC_nb _ (by decide) (by decide))
        (seqP_chars (plusC_nb _ (by decide) (by decide))
          (seqP_chars (chC_nb _ (by decide) (by decide))
            (seqP_chars (repC_nb _ (by decide) (by decide) 2)
              (starC_nb _ (by decide) (by decide))))))
  · exact seqP_nonNil_left (plusC_nonNil _)
  · exact seqP_hasGood_right (seqP_hasGood_left
      (chC_hasGood _ (fun c hc => Or.inr (Or.inl (by simpa using hc)))))

theorem dateMonth_good_chars : PChars dateMonth noBrCh :=
  altP_chars
    (seqP_chars (chC_nb _ (by decide) (by decide)) (chC_nb _ (by decide) (by decide)))
    (seqP_chars (chC_nb _ (by decide) (by decide)) (chC_nb _ (by decide) (by decide)))

theorem dateMonth_good : PGood dateMonth := by
  refine ⟨dateMonth_good_chars, ?_, ?_⟩
  · exact altP_nonNil (seqP_nonNil_left (chC_nonNil _)) (seqP_nonNil_left (chC_nonNil _))
  · refine altP_hasGood (seqP_hasGood_left (chC_hasGood _ ?_))
      (seqP_hasGood_left (chC_hasGood _ ?_))
    · intro c hc
      have : c = '0' := by simpa using hc
      subst this
      exact Or.inl (by decide)
    · intro c hc
      have : c = '1' := by simpa using hc
      subst this
      exact Or.inl (by decide)

theorem dateDay_chars : PChars dateDay noBrCh :=
  altP_chars
    (seqP_chars (chC_nb _ (by decide) (by decide)) (chC_nb _ (by decide) (by decide)))
    (altP_chars
      (seqP_chars (chC_nb _ (by decide) (by decide)) (chC_nb _ (by decide) (by decide)))
      (seqP_chars (chC_nb _ (by decide) (by decide)) (chC_nb _ (by decide) (by decide))))

theorem dateBirthCore_good : PGood dateBirthCore := by
  refine ⟨?_, ?_, ?_⟩
  · exact seqP_chars dateMonth_good_chars
      (seqP_chars (chC_nb _ (by decide) (by decide))
        (seqP_chars dateDay_chars
          (seqP_chars (chC_nb _ (by decide) (by decide))
            (seqP_chars
              (altP_chars (litCIAux_nb _ (by decide)) (litCIAux_nb _ (by decide)))
              (repC_nb _ (by decide) (by decide) 2)))))
  · exact seqP_nonNil_left dateMonth_good.2.1
  · exact seqP_hasGood_left dateMonth_good.2.2

theorem mrnCore_good : PGood mrnCore := by
  refine ⟨?_, ?_, ?_⟩
  · exact seqP_chars
      (altP_chars (litCIAux_nb _ (by decide))
        (altP_chars (litCIAux_nb _ (by decide)) (litCIAux_nb _ (by decide))))
      (seqP_chars (starC_nb _ (by decide) (by decide))
        (repRangeC_nb _ (by decide) (by decide) 6 10))
  · exact seqP_nonNil_left
      (altP_nonNil (litCIAux_nonNil _ _) (altP_nonNil (litCIAux_nonNil _ _) (litCIAux_nonNil _ _)))
  · exact seqP_hasGood_right (seqP_hasGood_right
      (seqP_hasGood_left (repC_succ_hasGood _ digit_good 5)))

theorem addrSuffix_chars : PChars addrSuffix noBrCh := by
  have hnil : PChars (fun _ : Str => ([] : List (Str × Str))) noBrCh := by
    intro cs ur hur
    simp at hur
  simp only [addrSuffix, List.foldr]
  exact altP_chars (litCIAux_nb _ (by decide))
    (altP_chars (litCIAux_nb _ (by decide))
      (altP_chars (litCIAux_nb _ (by decide))
        (altP_chars (litCIAux_nb _ (by decide))
          (altP_chars (litCIAux_nb _ (by decide))
            (altP_chars (litCIAux_nb _ (by decide))
              (altP_chars (litCIAux_nb _ (by decide))
                (altP_chars (litCIAux_nb _ (by decide))
                  (altP_chars (litCIAux_nb _ (by decide))
                    (altP_chars (litCIAux_nb _ (by decide))
                      (altP_chars (litCIAux_nb _ (by decide))
                        (altP_chars (litCIAux_nb _ (by decide))
                          (altP_chars (litCIAux_nb _ (by decide))
                            (altP_chars (litCIAux_nb _ (by decide))
                              (altP_chars (litCIAux_nb _ (by decide))
                                (altP_chars (litCIAux_nb _ (by decide)) hnil)))))))))))))))

theorem addressCore_good : PGood addressCore := by
  refine ⟨?_, ?_, ?_⟩
  · exact seqP_chars (plusC_nb _ (by decide) (by decide))
      (seqP_chars (plusC_nb _ (by decide) (by decide))
        (seqP_chars (plusC_nb _ (by decide) (by decide)) addrSuffix_chars))
  · exact seqP_nonNil_left (plusC_nonNil _)
  · exact seqP_hasGood_left (plusC_hasGood _ digit_good)

theorem nameFirstLastCore_good : PGood nameFirstLastCore := by
  refine ⟨?_, ?_, ?_⟩
  · exact seqP_chars (chC_nb _ (by decide) (by decide))
      (seqP_chars (plusC_nb _ (by decide) (by decide))
        (seqP_chars (plusC_nb _ (by decide) (by decide))
          (seqP_chars (chC_nb _ (by decide) (by decide))
            (plusC_nb _ (by decide) (by decide)))))
  · exact seqP_nonNil_left (chC_nonNil _)
  · exact seqP_hasGood_right (seqP_hasGood_left (plusC_hasGood _ lower_good))

theorem nameDrCore_good : PGood nameDrCore := by
  refine ⟨?_, ?_, ?_⟩
  · exact seqP_chars (litCSAux_nb _ (by decide))
      (seqP_chars (plusC_nb _ (by decide) (by decide))
        (seqP_chars (chC_nb _ (by decide) (by decide))
          (plusC_nb _ (by decide) (by decide))))
  · exact seqP_nonNil_left (litCSAux_nonNil _ _)
  · exact seqP_hasGood_right (seqP_hasGood_right (seqP_hasGood_right
      (plusC_hasGood _ lower_good)))

theorem namePatientCore_good : PGood namePatientCore := by
  refine ⟨?_, ?_, ?_⟩
  · exact seqP_chars (litCSAux_nb _ (by decide))
      (seqP_chars (plusC_nb _ (by decide) (by decide))
        (seqP_chars (chC_nb _ (by decide) (by decide))
          (plusC_nb _ (by decide) (by decide))))
  · exact seqP_nonNil_left (litCSAux_nonNil _ _)
  · exact seqP_hasGood_right (seqP_hasGood_right (seqP_hasGood_right
      (plusC_hasGood _ lower_good)))

/-- A bracket-free prefix of `text.replace(s, t)` is a prefix of `text`:
the replaced output agrees with the input up to the first inserted token,
whose first character is `'['`. -/
theorem replaceAllF_prefix_aux :
    ∀ (fuel : Nat) (s t text v : Str),
      s ≠ [] → TokShape t → '[' ∉ v →
      v <+: replaceAllF fuel s t text → v <+: text := by
  intro fuel
  induction fuel with
  | zero => intro s t text v _ _ _ h; simpa [replaceAllF] using h
  | succ fuel ih =>
    intro s t text v hs ht hv h
    match text with
    | [] =>
      simp only [replaceAllF, if_neg hs] at h
      exact h
    | c :: rest =>
      by_cases hp : s ≠ [] ∧ s.isPrefixOf (c :: rest)
      · rw [replaceAllF, if_pos hp] at h
        match v, h with
        | [], _ => exact List.nil_prefix
        | y :: v2, h =>
          exfalso
          rcases ht.1 with ⟨mid, rfl⟩
          rcases h with ⟨w, hw⟩
          have hy : y = '[' := by
            have hhd := congrArg List.head? hw
            simpa using hhd
          exact hv (hy ▸ List.mem_cons_self y v2)
      · rw [replaceAllF, if_neg hp, if_neg hs] at h
        match v, h with
        | [], _ => exact List.nil_prefix
        | y :: v2, h =>
          rw [List.cons_prefix_cons] at h
          rcases h with ⟨rfl, h2⟩
          have hv2 : '[' ∉ v2 := fun hmem => hv (List.mem_cons_of_mem y hmem)
          exact List.cons_prefix_cons.mpr ⟨rfl, ih s t rest v2 hs ht hv2 h2⟩

/-- After `text.replace(s, t)` with a bracket-shaped token `t`, a good string
`u` that is either `s` itself or was absent from `text` does not occur in the
result. -/
theorem replaceAllF_not_infix :
    ∀ (fuel : Nat) (s t text u : Str),
      text.length < fuel → s ≠ [] → TokShape t →
      u ≠ [] → (∀ c ∈ u, noBrCh c) → ¬ u <:+: t →
      (u = s ∨ ¬ u <:+: text) →
      ¬ u <:+: replaceAllF fuel s t text := by
  intro fuel
  induction fuel with
  | zero => intro s t text u h; omega
  | succ fuel ih =>
    intro s t text u hlen hs ht hu hnb hut hdisj
    match text with
    | [] =>
      simp only [replaceAllF, if_neg hs]
      intro h
      exact hu (List.eq_nil_of_infix_nil h)
    | c :: rest =>
      by_cases hp : s ≠ [] ∧ s.isPrefixOf (c :: rest)
      · rw [replaceAllF, if_pos hp]
        have hdroplen : ((c :: rest).drop s.length).length < fuel := by
          have hs1 : 1 ≤ s.length := List.length_pos.mpr hs
          simp only [List.length_drop, List.length_cons] at *
          omega
        have hrec : ¬ u <:+: replaceAllF fuel s t ((c :: rest).drop s.length) := by
          apply ih s t _ u hdroplen hs ht hu hnb hut
          rcases hdisj with rfl | habs
          · exact Or.inl rfl
          · exact Or.inr fun hcon =>
              habs (hcon.trans (List.drop_suffix _ _).isInfix)
        intro hcon
        rcases infix_append_cases hcon with h1 | h1 | ⟨a2, b1, hne, hne2, hsuf, hpre, rfl⟩
        · exact hut h1
        · exact hrec h1
        · have hbr := close_bracket_mem_of_suffix ht hsuf hne
          exact (hnb ']' (List.mem_append_left b1 hbr)).2 rfl
      · rw [replaceAllF, if_neg hp, if_neg hs]
        have hrec : ¬ u <:+: replaceAllF fuel s t rest := by
          apply ih s t rest u (by simp only [List.length_cons] at hlen; omega) hs ht hu hnb hut
          rcases hdisj with rfl | habs
          · exact Or.inl rfl
          · exact Or.inr fun hcon =>
              habs (hcon.trans (List.suffix_cons c rest).isInfix)
        intro hcon
        rw [List.infix_cons_iff] at hcon
        rcases hcon with hcon | hcon
        · match u, hu, hcon with
          | y :: u2, _, hcon =>
            rw [List.cons_prefix_cons] at hcon
            rcases hcon with ⟨rfl, h2⟩
            have hnbr : '[' ∉ u2 := fun hmem =>
              (hnb '[' (List.mem_cons_of_mem y hmem)).1 rfl
            have hpre2 : u2 <+: rest := by
              apply replaceAllF_prefix_aux fuel s t rest u2 hs ht hnbr h2
            have hptext : (y :: u2) <+: (y :: rest) := List.cons_prefix_cons.mpr ⟨rfl, hpre2⟩
            rcases hdisj with rfl | habs
            · exact hp ⟨hs, List.isPrefixOf_iff_prefix.mpr hptext⟩
            · exact habs hptext.isInfix
        · exact hrec hcon

/-- A successful `matchAt` result is among the core parser's results. -/
theorem matchAt_mem {core : Parse} {prev : Option Char} {cs : Str}
    {ur : Str × Str} (h : matchAt core prev cs = some ur) : ur ∈ core cs := by
  unfold matchAt at h
  by_cases hb : boundaryB prev cs.head? = true
  · rw [if_pos hb] at h
    exact List.mem_of_find?_eq_some h
  · rw [if_neg hb] at h
    cases h

/-- Every substring reported by `finditer` over a sound pattern is good. -/
theorem finditerF_good {core : Parse} (hg : PGood core) :
    ∀ (fuel : Nat) (prev : Option Char) (cs : Str) (pos : Nat) (m : Nat × Str),
      m ∈ finditerF core fuel prev cs pos → GoodStr m.2 := by
  intro fuel
  induction fuel with
  | zero =>
    intro prev cs pos m hm
    simp [finditerF] at hm
  | succ fuel ih =>
    intro prev cs pos m hm
    match cs, hm with
    | [], hm => simp [finditerF] at hm
    | c :: rest, hm =>
      rw [finditerF] at hm
      cases hmt : matchAt core prev (c :: rest) with
      | some ur =>
        rw [hmt] at hm
        rcases List.mem_cons.mp hm with rfl | hm2
        · have hmem := matchAt_mem hmt
          exact ⟨hg.2.1 _ _ hmem, hg.1 _ _ hmem, hg.2.2 _ _ hmem⟩
        · exact ih _ _ _ _ hm2
      | none =>
        rw [hmt] at hm
        exact ih _ _ _ _ hm

theorem finditer_good {core : Parse} (hg : PGood core) {cs : Str}
    {m : Nat × Str} (hm : m ∈ finditer core cs) : GoodStr m.2 :=
  finditerF_good hg cs.length none cs 0 m hm

/-- Every replacement token of the redactors is bracket-shaped and contains
no good character. -/
theorem replacements_tokShape (phi_type : String) : TokShape (replacements phi_type) := by
  unfold replacements
  split
  · exact ⟨⟨"SSN_REDACTED".data, by decide⟩, by decide⟩
  split
  · exact ⟨⟨"PHONE_REDACTED".data, by decide⟩, by decide⟩
  split
  · exact ⟨⟨"EMAIL_REDACTED".data, by decide⟩, by decide⟩
  split
  · exact ⟨⟨"DOB_REDACTED".data, by decide⟩, by decide⟩
  split
  · exact ⟨⟨"MRN_REDACTED".data, by decide⟩, by decide⟩
  split
  · exact ⟨⟨"ADDRESS_REDACTED".data, by decide⟩, by decide⟩
  split
  · exact ⟨⟨"NAME_REDACTED".data, by decide⟩, by decide⟩
  · exact ⟨⟨"PHI_REDACTED".data, by decide⟩, by decide⟩

/-- Every detection of `_detect_patterns` records a good original and a
bracket-shaped replacement. -/
theorem detectPatterns_good {text : Str} {d : Detection}
    (hd : d ∈ detectPatterns text) : GoodStr d.original ∧ TokShape d.replacement := by
  unfold detectPatterns at hd
  simp only [List.mem_flatMap, List.mem_map] at hd
  rcases hd with ⟨pt, hpt, m, hm, rfl⟩
  simp only [phiPatterns, List.mem_cons, List.not_mem_nil, or_false] at hpt
  refine ⟨?_, replacements_tokShape pt.1⟩
  rcases hpt with rfl | rfl | rfl | rfl | rfl | rfl
  · exact finditer_good ssnCore_good hm
  · exact finditer_good phoneCore_good hm
  · exact finditer_good emailCore_good hm
  · exact finditer_good dateBirthCore_good hm
  · exact finditer_good mrnCore_good hm
  · exact finditer_good addressCore_good hm

/-- Same for `_detect_names` of the simple redactor. -/
theorem detectNames_good {text : Str} {d : Detection}
    (hd : d ∈ detectNames text) : GoodStr d.original ∧ TokShape d.replacement := by
  unfold detectNames at hd
  simp only [List.mem_flatMap, List.mem_map, List.mem_filter] at hd
  rcases hd with ⟨pat, hpat, m, ⟨hm, -⟩, rfl⟩
  simp only [namePatterns, List.mem_cons, List.not_mem_nil, or_false] at hpat
  refine ⟨?_, replacements_tokShape "name"⟩
  rcases hpat with rfl | rfl | rfl
  · exact finditer_good nameFirstLastCore_good hm
  · exact finditer_good nameDrCore_good hm
  · exact finditer_good namePatientCore_good hm

/-- Folding replacements of good originals by shaped tokens leaves no listed
original (and introduces no previously absent good string). -/
theorem fold_replace_not_infix :
    ∀ (reps : List (Str × Str)) (text u : Str),
      (∀ p ∈ reps, GoodStr p.1 ∧ TokShape p.2) →
      GoodStr u →
      (u ∈ reps.map Prod.fst ∨ ¬ u <:+: text) →
      ¬ u <:+: reps.foldl (fun acc p => replaceAll p.1 p.2 acc) text := by
  intro reps
  induction reps with
  | nil =>
    intro text u _ _ hdisj
    simpa using hdisj
  | cons st rest ih =>
    intro text u hgood hu hdisj
    rw [List.foldl_cons]
    have hst := hgood st (List.mem_cons_self st rest)
    have hs_good : GoodStr st.1 := hst.1
    have ht_shape : TokShape st.2 := hst.2
    have hnext : ∀ p ∈ rest, GoodStr p.1 ∧ TokShape p.2 :=
      fun p hp => hgood p (List.mem_cons_of_mem st hp)
    have hstep : u = st.1 ∨ ¬ u <:+: text →
        ¬ u <:+: replaceAll st.1 st.2 text := by
      intro hd
      unfold replaceAll
      exact replaceAllF_not_infix (text.length + 1) st.1 st.2 text u
        (by omega) hs_good.1 ht_shape hu.1 hu.2.1
        (not_infix_of_good hu ht_shape) hd
    rcases hdisj with hmem | habs
    · rcases List.mem_map.mp hmem with ⟨p, hp, rfl⟩
      rcases List.mem_cons.mp hp with rfl | hp2
      · exact ih _ p.1 hnext hu (Or.inr (hstep (Or.inl rfl)))
      · exact ih _ p.1 hnext hu (Or.inl (List.mem_map_of_mem Prod.fst hp2))
    · exact ih _ u hnext hu (Or.inr (hstep (Or.inr habs)))

/-- `applyDetections` is a fold of per-detection replacements. -/
theorem applyDetections_eq_fold (text : Str) (ds : List Detection) :
    applyDetections text ds =
      (ds.map (fun d => (d.original, d.replacement))).foldl
        (fun acc p => replaceAll p.1 p.2 acc) text := by
  rw [List.foldl_map]
  rfl

/-- Both `redact_phi` bodies share this shape: a first detector pass applied
to the input, then a second detector pass applied to the intermediate text,
each followed by replace-all folds.  If every detection of both passes is
good, no recorded original survives into the final text. -/
theorem two_stage_redaction_sound (detA detB : Str → List Detection)
    (hA : ∀ text d, d ∈ detA text → GoodStr d.original ∧ TokShape d.replacement)
    (hB : ∀ text d, d ∈ detB text → GoodStr d.original ∧ TokShape d.replacement)
    (text : Str) :
    ∀ d ∈ detA text ++ detB (applyDetections text (detA text)),
      ¬ d.original <:+:
        applyDetections (applyDetections text (detA text))
          (detB (applyDetections text (detA text))) := by
  intro d hd
  have hds : ∀ d2 ∈ detA text ++ detB (applyDetections text (detA text)),
      GoodStr d2.original ∧ TokShape d2.replacement := by
    intro d2 hd2
    rcases List.mem_append.mp hd2 with h | h
    · exact hA text d2 h
    · exact hB _ d2 h
  have hfold :
      applyDetections (applyDetections text (detA text))
          (detB (applyDetections text (detA text))) =
        ((detA text ++ detB (applyDetections text (detA text))).map
          (fun d2 => (d2.original, d2.replacement))).foldl
            (fun acc p => replaceAll p.1 p.2 acc) text := by
    rw [applyDetections_eq_fold, applyDetections_eq_fold, List.map_append,
      List.foldl_append]
  rw [hfold]
  apply fold_replace_not_infix
  · intro p hp
    rcases List.mem_map.mp hp with ⟨d2, hd2, rfl⟩
    exact hds d2 hd2
  · exact (hds d hd).1
  · refine Or.inl ?_
    rw [List.map_map]
    exact List.mem_map_of_mem _ hd

/-- Every `_detect_patterns` detection carries method `"regex"`. -/
theorem detectPatterns_method {text : Str} {d : Detection}
    (hd : d ∈ detectPatterns text) : d.method = "regex" := by
  unfold detectPatterns at hd
  simp only [List.mem_flatMap, List.mem_map] at hd
  rcases hd with ⟨pt, hpt, m, hm, rfl⟩
  rfl

/-- Disjoint filters of one list cannot jointly outnumber it. -/
theorem length_filter_two_le {α : Type} (p q : α → Bool)
    (hpq : ∀ x, ¬(p x = true ∧ q x = true)) :
    ∀ l : List α, (l.filter p).length + (l.filter q).length ≤ l.length := by
  intro l
  induction l with
  | nil => simp
  | cons x rest ih =>
    by_cases hp : p x = true
    · have hq : ¬ q x = true := fun hqx => hpq x ⟨hp, hqx⟩
      rw [List.filter_cons, List.filter_cons, if_pos hp, if_neg hq]
      simp only [List.length_cons]
      omega
    · rw [List.filter_cons, List.filter_cons, if_neg hp]
      by_cases hq : q x = true
      · rw [if_pos hq]
        simp only [List.length_cons]
        omega
      · rw [if_neg hq]
        simp only [List.length_cons]
        omega

/-- Bounds and exact value of `_calculate_confidence`. -/
theorem calculateConfidence_spec (ds : List Detection) (text : Str) :
    0 ≤ calculateConfidence ds text ∧ calculateConfidence ds text ≤ 1 ∧
      (ds = [] → calculateConfidence ds text = 1) ∧
      (ds ≠ [] → calculateConfidence ds text =
        (regexWeight * ((ds.filter (fun d => d.method = "regex")).length : ℚ)
          + nlpWeight * ((ds.filter (fun d => d.method = "nlp")).length : ℚ))
          / (ds.length : ℚ)) := by
  by_cases hds : ds = []
  · subst hds
    refine ⟨by norm_num [calculateConfidence], by norm_num [calculateConfidence],
      fun _ => by norm_num [calculateConfidence], fun h => absurd rfl h⟩
  · have hlen : 0 < ds.length := List.length_pos.mpr hds
    have hlenQ : (0 : ℚ) < (ds.length : ℚ) := by exact_mod_cast hlen
    set r : ℚ := ((ds.filter (fun d => d.method = "regex")).length : ℚ) with hr
    set n : ℚ := ((ds.filter (fun d => d.method = "nlp")).length : ℚ) with hn
    have hrn : r + n ≤ (ds.length : ℚ) := by
      have := length_filter_two_le (fun d => d.method = "regex")
        (fun d => d.method = "nlp")
        (by
          intro d ⟨h1, h2⟩
          have e1 : d.method = "regex" := by simpa using h1
          have e2 : d.method = "nlp" := by simpa using h2
          rw [e1] at e2
          exact absurd e2 (by decide)) ds
      rw [hr, hn]
      exact_mod_cast this
    have hr0 : 0 ≤ r := by rw [hr]; positivity
    have hn0 : 0 ≤ n := by rw [hn]; positivity
    have hval : calculateConfidence ds text =
        min 1 ((regexWeight * r + nlpWeight * n) / (ds.length : ℚ)) := by
      rw [calculateConfidence, if_neg hds]
    have hle1 : (regexWeight * r + nlpWeight * n) / (ds.length : ℚ) ≤ 1 := by
      rw [div_le_one hlenQ]
      unfold regexWeight nlpWeight
      nlinarith
    have h0 : 0 ≤ (regexWeight * r + nlpWeight * n) / (ds.length : ℚ) := by
      apply div_nonneg _ (le_of_lt hlenQ)
      unfold regexWeight nlpWeight
      nlinarith
    refine ⟨?_, ?_, fun h => absurd h hds, fun _ => ?_⟩
    · rw [hval]; exact le_min (by norm_num) h0
    · rw [hval]; exact min_le_left _ _
    · rw [hval, min_eq_right hle1]

/--
**C1.** For every input text, `redact(text).redactedText` contains none of
the substrings recorded as `original` in the `detected_phi` list of the
result — for `PHIRedactor.redact_phi` and `SimplePHIRedactor.redact_phi`
alike.
-/
theorem C1_redacted_text_omits_all_matched_originals :
    ∀ text : Str,
      (∀ d ∈ (redactPhi text).detected_phi,
        ¬ d.original <:+: (redactPhi text).redacted_text) ∧
      (∀ d ∈ (simpleRedactPhi text).detected_phi,
        ¬ d.original <:+: (simpleRedactPhi text).redacted_text) := by
  intro text
  constructor
  · intro d hd
    exact two_stage_redaction_sound detectPatterns detectEntities
      (fun t d2 hd2 => detectPatterns_good hd2)
      (fun t d2 hd2 => absurd hd2 (List.not_mem_nil d2))
      text d hd
  · intro d hd
    exact two_stage_redaction_sound detectPatterns detectNames
      (fun t d2 hd2 => detectPatterns_good hd2)
      (fun t d2 hd2 => detectNames_good hd2)
      text d hd

/-- Witness for C1: the ssn match of the scenario input is indeed absent
from the redacted output. -/
theorem C1_redacted_text_omits_all_matched_originals_witness :
    ¬ ("123-45-6789".data <:+:
      (redactPhi "SSN 123-45-6789, patient reports headache 7/10".data).redacted_text) := by
  intro hcon
  exact (C1_redacted_text_omits_all_matched_originals
      "SSN 123-45-6789, patient reports headache 7/10".data).1
    { type := "ssn", original := "123-45-6789".data,
      replacement := "[SSN_REDACTED]".data, start_pos := 4, end_pos := 15,
      method := "regex" } (by decide) hcon

/--
**C2.** If either internal detector raises during `redact_phi`, the whole
call short-circuits to the fail-closed sentinel: `redacted_text` is exactly
`"[TEXT_REDACTION_FAILED]"`, `detected_phi` is empty — never partially
redacted text.  Stated for both redactors over arbitrary (possibly raising)
detector behaviours.
-/
theorem C2_detector_error_fails_closed :
    ∀ (dp de : Str → Except Unit (List Detection)) (text : Str),
      ((dp text).isOk = false ∨
        (∃ pd, dp text = .ok pd ∧ (de (applyDetections text pd)).isOk = false)) →
      redactPhiWith dp de text = failClosedResult text ∧
      simpleRedactPhiWith dp de text = failClosedResult text ∧
      (failClosedResult text).redacted_text = "[TEXT_REDACTION_FAILED]".data ∧
      (failClosedResult text).detected_phi = [] := by
  intro dp de text h
  refine ⟨?_, ?_, rfl, rfl⟩ <;>
  · cases hdp : dp text with
    | error e => simp [redactPhiWith, simpleRedactPhiWith, hdp]
    | ok pd =>
      rcases h with h | ⟨pd2, hpd2, hde⟩
      · rw [hdp] at h; cases h
      · rw [hdp] at hpd2
        injection hpd2 with hpd2
        subst hpd2
        cases hde2 : de (applyDetections text pd) with
        | error e => simp [redactPhiWith, simpleRedactPhiWith, hdp, hde2]
        | ok nd => rw [hde2] at hde; cases hde

/-- Witness for C2 at a concrete raising detector. -/
theorem C2_detector_error_fails_closed_witness :
    redactPhiWith (fun _ => .error ()) (fun t => .ok (detectEntities t)) "abc".data =
      failClosedResult "abc".data :=
  (C2_detector_error_fails_closed (fun _ => .error ())
    (fun t => .ok (detectEntities t)) "abc".data (Or.inl rfl)).1

/--
**C7.** For every text, the aggregate confidence of `redact(text)` lies in
`[0,1]`; it equals exactly `1` when there are no detections; and when
detections exist it equals the weighted ratio — regex detections weighted
`regexWeight = 9/10`, heuristic (`nlp`) detections weighted the strictly
smaller `nlpWeight = 7/10` — divided by the total detection count.
-/
theorem C7_confidence_weighted_ratio :
    ∀ text : Str,
      0 ≤ (redactPhi text).confidence_score ∧
      (redactPhi text).confidence_score ≤ 1 ∧
      ((redactPhi text).detected_phi = [] → (redactPhi text).confidence_score = 1) ∧
      ((redactPhi text).detected_phi ≠ [] →
        (redactPhi text).confidence_score =
          (regexWeight *
              (((redactPhi text).detected_phi.filter (fun d => d.method = "regex")).length : ℚ)
            + nlpWeight *
              (((redactPhi text).detected_phi.filter (fun d => d.method = "nlp")).length : ℚ))
            / (((redactPhi text).detected_phi).length : ℚ)) ∧
      nlpWeight < regexWeight := by
  intro text
  have hconf : (redactPhi text).confidence_score =
      calculateConfidence ((redactPhi text).detected_phi) text := rfl
  have hs := calculateConfidence_spec ((redactPhi text).detected_phi) text
  rw [hconf]
  exact ⟨hs.1, hs.2.1, hs.2.2.1, hs.2.2.2, by norm_num [nlpWeight, regexWeight]⟩

/--
**C6 (counterexample).** On the input
`"SSN 123-45-6789, patient reports headache 7/10"` the redactor does *not*
return `"[SSN_REDACTED], patient reports headache 7/10"`: only the matched
substring `"123-45-6789"` is replaced, so the literal word `"SSN "` at the
start of the input survives.
-/
theorem C6_scenario_expected_string_wrong :
    (redactPhi "SSN 123-45-6789, patient reports headache 7/10".data).redacted_text ≠
      "[SSN_REDACTED], patient reports headache 7/10".data := by
  decide

/--
**C6 (amended).** `redact` on
`"SSN 123-45-6789, patient reports headache 7/10"` returns redacted text
`"SSN [SSN_REDACTED], patient reports headache 7/10"` and exactly one
match, of type `ssn`, with original `"123-45-6789"`.
-/
theorem C6_scenario_amended :
    (redactPhi "SSN 123-45-6789, patient reports headache 7/10".data).redacted_text =
      "SSN [SSN_REDACTED], patient reports headache 7/10".data ∧
    ((redactPhi "SSN 123-45-6789, patient reports headache 7/10".data).detected_phi).map
        (fun d => (d.type, d.original)) = [("ssn", "123-45-6789".data)] := by
  constructor <;> decide

/-- Witness for C7: a text with no detections gets confidence exactly 1. -/
theorem C7_confidence_weighted_ratio_witness :
    (redactPhi "no structured identifiers here".data).confidence_score = 1 :=
  (C7_confidence_weighted_ratio "no structured identifiers here".data).2.2.1 (by decide)

/--
**C10.** `validate_redaction(original, redacted)` does not depend on its
`original` argument: it re-runs detection on `redacted` only.  Holds for
both redactors.
-/
theorem C10_validate_ignores_original :
    ∀ original1 original2 redacted : Str,
      validateRedaction original1 redacted = validateRedaction original2 redacted ∧
      simpleValidateRedaction original1 redacted =
        simpleValidateRedaction original2 redacted :=
  fun _ _ _ => ⟨rfl, rfl⟩

/-!
## `auth/consent_manager.py` — `ConsentManager`

Timestamps (`time.time()`, `iat`, `exp`) are modelled as integer epoch
seconds.  `uuid.uuid4()` and `hashlib.sha256(...).hexdigest()[:16]` are
external library calls; they enter the model as the parameters `sessionId`
and `hashFn` of `authenticatePatient`.  JWT signing is modelled by pairing
the payload with the signing key: `jwt.decode` succeeds exactly when the
token was signed with the expected secret.
-/

/-- `ConsentFlags` dataclass. -/
structure ConsentFlags where
  audio_recording : Bool := false
  transcription : Bool := false
  ai_processing : Bool := false
  data_storage : Bool := false
  summary_generation : Bool := false
  deriving Repr, DecidableEq

/-- The JWT payload built in `authenticate_patient`. -/
structure TokenPayload where
  patient_id : String
  session_id : String
  consent : ConsentFlags
  iat : Int
  exp : Int
  deriving Repr, DecidableEq

/-- A signed token: payload plus the key it was signed with. -/
structure Jwt where
  payload : TokenPayload
  key : String
  deriving Repr, DecidableEq

/-- `PatientInfo` dataclass as reconstructed by `verify_token`. -/
structure PatientInfo where
  patient_id : String
  session_id : String
  consent : ConsentFlags
  authenticated_at : Int
  expires_at : Int
  deriving Repr, DecidableEq

/-- The errors surfaced by `ConsentManager` (`ValueError` messages). -/
inductive AuthError where
  | insufficientConsent
  | tokenExpired
  | tokenInvalid
  deriving Repr, DecidableEq

/-- `self.secret_key`. -/
def secretKey : String := "nightingale_jwt_secret_key_change_in_production"

/-- `self.token_expiry_minutes = 60`. -/
def tokenExpiryMinutes : Int := 60

/-- `leeway=30` passed to `jwt.decode`. -/
def leewaySeconds : Int := 30

/-- `ConsentManager._validate_minimum_consent`. -/
def validateMinimumConsent (consent : ConsentFlags) : Bool :=
  consent.audio_recording && consent.transcription && consent.ai_processing

/-- `ConsentManager.authenticate_patient`: hash the id, validate minimum
consent (raising `ValueError` = `insufficientConsent` otherwise), and sign a
payload with `iat = now`, `exp = now + 60 * 60`. -/
def authenticatePatient (hashFn : String → String) (sessionId : String)
    (now : Int) (patient_id : String) (consent : ConsentFlags) :
    Except AuthError Jwt :=
  if validateMinimumConsent consent then
    .ok { payload := { patient_id := hashFn patient_id, session_id := sessionId,
                       consent := consent, iat := now,
                       exp := now + tokenExpiryMinutes * 60 },
          key := secretKey }
  else .error .insufficientConsent

/-- `ConsentManager.verify_token`:
1. `jwt.decode(..., leeway=30)` — signature check, then the PyJWT expiry
   check `exp < now - leeway`;
2. the additional manual check `if exp_timestamp and current_timestamp >
   exp_timestamp` — note it applies **no** leeway, and is skipped when
   `exp == 0` (falsy in Python);
3. on success, rebuild `PatientInfo` from the payload. -/
def verifyToken (now : Int) (token : Jwt) : Except AuthError PatientInfo :=
  if token.key ≠ secretKey then .error .tokenInvalid
  else if token.payload.exp < now - leewaySeconds then .error .tokenExpired
  else if token.payload.exp ≠ 0 ∧ now > token.payload.exp then .error .tokenExpired
  else .ok { patient_id := token.payload.patient_id,
             session_id := token.payload.session_id,
             consent := token.payload.consent,
             authenticated_at := token.payload.iat,
             expires_at := token.payload.exp }

/-- `ConsentManager.has_required_consent`. -/
def hasRequiredConsent (info : PatientInfo) : Bool :=
  info.consent.audio_recording && info.consent.transcription && info.consent.ai_processing

/-- `ConsentManager.check_operation_consent`:
`operation_requirements.get(operation, False)`. -/
def checkOperationConsent (info : PatientInfo) (operation : String) : Bool :=
  if operation = "record_audio" then info.consent.audio_recording
  else if operation = "transcribe" then info.consent.transcription
  else if operation = "ai_process" then info.consent.ai_processing
  else if operation = "store_data" then info.consent.data_storage
  else if operation = "generate_summary" then info.consent.summary_generation
  else false

/-- All five consents granted. -/
def allConsent : ConsentFlags :=
  { audio_recording := true, transcription := true, ai_processing := true,
    data_storage := true, summary_generation := true }

/-- The token issued at time 0 for the concrete C3 scenario. -/
def c3Token : Jwt :=
  { payload := { patient_id := "hashedpatientid0", session_id := "session-1",
                 consent := allConsent, iat := 0, exp := 3600 },
    key := secretKey }

/--
**C3 (counterexample).** A credential issued at time `0` with ttl
`T = 3600 s` is rejected with `TokenExpired` already at `3615 s` — only
`15 s ≤ leeway = 30 s` past expiry, where the claim asserts it must still
verify.  The manual `current_timestamp > exp_timestamp` check in
`verify_token` applies no leeway and overrides the `leeway=30` passed to
`jwt.decode`.
-/
theorem C3_leeway_grace_refuted :
    authenticatePatient (fun _ => "hashedpatientid0") "session-1" 0 "patient-1"
        allConsent = .ok c3Token ∧
    (3615 : Int) ≤ 3600 + leewaySeconds ∧
    verifyToken 3615 c3Token = .error .tokenExpired := by
  refine ⟨rfl, by norm_num [leewaySeconds], ?_⟩
  rw [verifyToken]
  norm_num [c3Token, secretKey, leewaySeconds]

/--
**C3 (amended).** `verify` validates the signature and checks expiry, but
the 30-second leeway is only applied inside the decoder; an additional
strict comparison rejects every credential with `now > expiresAt`.  Hence a
credential issued with ttl `T = tokenExpiryMinutes * 60` verifies at any
`now ≤ issuedAt + T` (in particular at `T − 1 s`) and fails with
`TokenExpired` at any `now > issuedAt + T` (in particular already at
`T + 1 s`, and at `T + leeway + 1 s`); the claimed within-leeway grace
period after expiry does not exist.
-/
theorem C3_verify_expiry_amended :
    ∀ (hashFn : String → String) (sessionId patient_id : String)
      (consent : ConsentFlags) (t0 now : Int) (token : Jwt),
      0 ≤ t0 →
      authenticatePatient hashFn sessionId t0 patient_id consent = .ok token →
      (now ≤ t0 + tokenExpiryMinutes * 60 → (verifyToken now token).isOk = true) ∧
      (now > t0 + tokenExpiryMinutes * 60 →
        verifyToken now token = .error .tokenExpired) := by
  intro hashFn sessionId patient_id consent t0 now token ht0 hauth
  rw [authenticatePatient] at hauth
  by_cases hc : validateMinimumConsent consent = true
  · rw [if_pos hc] at hauth
    injection hauth with hauth
    subst hauth
    constructor
    · intro hnow
      simp only [tokenExpiryMinutes] at hnow
      rw [verifyToken]
      split_ifs with h1 h2 h3
      · exact absurd rfl h1
      · exfalso
        simp only [tokenExpiryMinutes, leewaySeconds] at h2
        omega
      · exfalso
        simp only [tokenExpiryMinutes] at h3
        omega
      · rfl
    · intro hnow
      simp only [tokenExpiryMinutes] at hnow
      rw [verifyToken]
      split_ifs with h1 h2 h3
      · exact absurd rfl h1
      · rfl
      · rfl
      · exfalso
        simp only [tokenExpiryMinutes, ne_eq, not_and, not_lt] at h3
        have hne : ¬ (t0 + 60 * 60 = 0) := by omega
        have := h3 hne
        omega
  · rw [if_neg hc] at hauth
    cases hauth

/-- Witness for C3 (amended) at the concrete token: verifies at `T − 1 s`,
expired at `T + leeway + 1 s`. -/
theorem C3_verify_expiry_amended_witness :
    (verifyToken 3599 c3Token).isOk = true ∧
    verifyToken 3631 c3Token = .error .tokenExpired := by
  have h := C3_verify_expiry_amended (fun _ => "hashedpatientid0") "session-1"
    "patient-1" allConsent 0
  exact ⟨(h 3599 c3Token (by norm_num) rfl).1 (by norm_num [tokenExpiryMinutes]),
    (h 3631 c3Token (by norm_num) rfl).2 (by norm_num [tokenExpiryMinutes])⟩

/-- Supporting fact for the issue/verify round trip: for any hash function
and subject, verifying a freshly issued credential inside its validity
window returns exactly the consent flags supplied at issuance, and the
carried subject identifier is the hash image (`_hash_patient_id` =
`sha256(...).hexdigest()[:16]`), not the raw input.  Whether that image can
ever coincide with the raw input is a property of the external hash alone. -/
theorem verify_of_authenticate_roundtrip :
    ∀ (hashFn : String → String) (sessionId patient_id : String)
      (consent : ConsentFlags) (t0 : Int) (token : Jwt) (info : PatientInfo),
      authenticatePatient hashFn sessionId t0 patient_id consent = .ok token →
      verifyToken t0 token = .ok info →
      info.consent = consent ∧ info.patient_id = hashFn patient_id := by
  intro hashFn sessionId patient_id consent t0 token info hauth hver
  rw [authenticatePatient] at hauth
  by_cases hc : validateMinimumConsent consent = true
  · rw [if_pos hc] at hauth
    injection hauth with hauth
    subst hauth
    rw [verifyToken] at hver
    split_ifs at hver
    injection hver with hver
    subst hver
    exact ⟨rfl, rfl⟩
  · rw [if_neg hc] at hauth
    cases hauth

/--
**C5.** `issue` fails with `ConsentInsufficient` whenever any one of
`recording`, `transcription`, `aiProcessing` is false — regardless of the
storage and summary-generation flags — and succeeds (never raising that
error) whenever all three hold.
-/
theorem C5_minimum_consent_gate :
    ∀ (hashFn : String → String) (sessionId : String) (now : Int)
      (patient_id : String) (consent : ConsentFlags),
      ((consent.audio_recording = false ∨ consent.transcription = false ∨
          consent.ai_processing = false) →
        authenticatePatient hashFn sessionId now patient_id consent =
          .error .insufficientConsent) ∧
      (consent.audio_recording = true ∧ consent.transcription = true ∧
          consent.ai_processing = true →
        (authenticatePatient hashFn sessionId now patient_id consent).isOk = true) := by
  intro hashFn sessionId now patient_id consent
  constructor
  · intro h
    rw [authenticatePatient, if_neg]
    rw [validateMinimumConsent]
    rcases h with h | h | h <;> simp [h]
  · rintro ⟨h1, h2, h3⟩
    rw [authenticatePatient, if_pos]
    · rfl
    · rw [validateMinimumConsent, h1, h2, h3]
      rfl

/-- Witness for C5: missing `ai_processing` is rejected even with storage
and summary consent granted; full minimum consent is accepted. -/
theorem C5_minimum_consent_gate_witness :
    authenticatePatient (fun _ => "h") "s" 0 "p"
        { audio_recording := true, transcription := true, ai_processing := false,
          data_storage := true, summary_generation := true } =
      .error .insufficientConsent ∧
    (authenticatePatient (fun _ => "h") "s" 0 "p" allConsent).isOk = true :=
  ⟨(C5_minimum_consent_gate (fun _ => "h") "s" 0 "p" _).1 (Or.inr (Or.inr rfl)),
   (C5_minimum_consent_gate (fun _ => "h") "s" 0 "p" allConsent).2 ⟨rfl, rfl, rfl⟩⟩

/--
**C9.** `check_operation_consent` returns `False` for every operation
outside the vocabulary `{record_audio, transcribe, ai_process, store_data,
generate_summary}`, whatever the consent flags are: unknown operations are
always denied.
-/
theorem C9_unknown_operations_denied :
    ∀ (info : PatientInfo) (operation : String),
      operation ∉ ["record_audio", "transcribe", "ai_process", "store_data",
        "generate_summary"] →
      checkOperationConsent info operation = false := by
  intro info operation h
  simp only [List.mem_cons, List.not_mem_nil, or_false, not_or] at h
  rw [checkOperationConsent, if_neg h.1, if_neg h.2.1, if_neg h.2.2.1,
    if_neg h.2.2.2.1, if_neg h.2.2.2.2]

/-- Witness for C9: a consent context with *every* flag granted still gets
`False` for an unknown operation. -/
theorem C9_unknown_operations_denied_witness :
    checkOperationConsent
      { patient_id := "h", session_id := "s", consent := allConsent,
        authenticated_at := 0, expires_at := 3600 } "delete_data" = false :=
  C9_unknown_operations_denied _ "delete_data" (by decide)

/-!
## `provenance/provenance_engine.py` — `ProvenanceEngine`

`uuid.uuid4()` enters the model as the `chunkId` parameter.  The timestamp
dicts are modelled by the two keys `map_provenance` reads, each optional
(`dict.get` with defaults `0.0` / `30.0`); Python floats are modelled as
exact rationals — the function only copies them, no arithmetic occurs.
-/

/-- One entry of the `timestamps` list. -/
structure TsEntry where
  start_time : Option ℚ := none
  end_time : Option ℚ := none
  deriving Repr, DecidableEq

/-- `ProvenanceChunk` dataclass. -/
structure ProvenanceChunk where
  chunk_id : String
  text : String
  start_time : ℚ
  end_time : ℚ
  provenance_refs : List String
  deriving Repr, DecidableEq

/-- Python dict assignment `m[k] = v` over an association-list model:
replaces any existing binding of `k`. -/
def dictInsert (k : String) (v : ProvenanceChunk)
    (m : List (String × ProvenanceChunk)) : List (String × ProvenanceChunk) :=
  m.filter (fun kv => kv.1 ≠ k) ++ [(k, v)]

/-- `ProvenanceEngine.map_provenance`: derive the window from the first
timestamp entry (nominal `0.0`–`30.0` when absent), generate reference ids
`"S1", "S2", …` capped at three, and store the chunk in the provenance map
under its (fresh) chunk id. -/
def mapProvenance (chunkId : String) (text : String) (timestamps : List TsEntry)
    (_sessionId : String) (provenanceMap : List (String × ProvenanceChunk)) :
    ProvenanceChunk × List (String × ProvenanceChunk) :=
  let startTime : ℚ :=
    match timestamps with
    | [] => 0
    | first :: _ => first.start_time.getD 0
  let endTime : ℚ :=
    match timestamps with
    | [] => 30
    | first :: _ => first.end_time.getD 30
  let chunk : ProvenanceChunk :=
    { chunk_id := chunkId, text := text, start_time := startTime,
      end_time := endTime,
      provenance_refs :=
        (List.range (min 3 timestamps.length)).map (fun i => "S" ++ toString (i + 1)) }
  (chunk, dictInsert chunkId chunk provenanceMap)

/--
**C8.** For every call of `map_provenance`: with no timestamps the span
carries the fixed nominal window `0.0`–`30.0`; otherwise start and end come
from the first timestamp entry (fields defaulted to `0.0` / `30.0` when
missing); and the reference-id list is exactly `["S1", …, "Sk"]` in order
with `k = min 3 (number of timestamp entries)`.
-/
theorem C8_provenance_window_and_refs :
    ∀ (chunkId text : String) (timestamps : List TsEntry) (sessionId : String)
      (pmap : List (String × ProvenanceChunk)),
      (timestamps = [] →
        (mapProvenance chunkId text timestamps sessionId pmap).1.start_time = 0 ∧
        (mapProvenance chunkId text timestamps sessionId pmap).1.end_time = 30) ∧
      (∀ first rest, timestamps = first :: rest →
        (mapProvenance chunkId text timestamps sessionId pmap).1.start_time =
          first.start_time.getD 0 ∧
        (mapProvenance chunkId text timestamps sessionId pmap).1.end_time =
          first.end_time.getD 30) ∧
      ((mapProvenance chunkId text timestamps sessionId pmap).1.provenance_refs.length =
        min 3 timestamps.length) ∧
      (∀ i : Nat, i < min 3 timestamps.length →
        (mapProvenance chunkId text timestamps sessionId pmap).1.provenance_refs[i]? =
          some ("S" ++ toString (i + 1))) := by
  intro chunkId text timestamps sessionId pmap
  refine ⟨?_, ?_, ?_, ?_⟩
  · rintro rfl
    exact ⟨rfl, rfl⟩
  · rintro first rest rfl
    exact ⟨rfl, rfl⟩
  · simp [mapProvenance]
  · intro i hi
    simp only [mapProvenance]
    rw [List.getElem?_map, List.getElem?_range hi]
    rfl

/-- Witness for C8 at concrete inputs: the empty-timestamps default window,
and a two-entry call taking the first entry's times with `["S1", "S2"]`. -/
theorem C8_provenance_window_and_refs_witness :
    ((mapProvenance "c1" "t" [] "s" []).1.start_time = 0 ∧
      (mapProvenance "c1" "t" [] "s" []).1.end_time = 30) ∧
    ((mapProvenance "c2" "t" [⟨some 5, some 9⟩, ⟨some 11, none⟩] "s" []).1.start_time =
        (⟨some 5, some 9⟩ : TsEntry).start_time.getD 0 ∧
      (mapProvenance "c2" "t" [⟨some 5, some 9⟩, ⟨some 11, none⟩] "s" []).1.end_time =
        (⟨some 5, some 9⟩ : TsEntry).end_time.getD 30) ∧
    (mapProvenance "c2" "t" [⟨some 5, some 9⟩, ⟨some 11, none⟩] "s" []).1.provenance_refs[1]? =
      some ("S" ++ toString 2) :=
  ⟨(C8_provenance_window_and_refs "c1" "t" [] "s" []).1 rfl,
   (C8_provenance_window_and_refs "c2" "t" [⟨some 5, some 9⟩, ⟨some 11, none⟩] "s" []).2.1
     ⟨some 5, some 9⟩ [⟨some 11, none⟩] rfl,
   (C8_provenance_window_and_refs "c2" "t" [⟨some 5, some 9⟩, ⟨some 11, none⟩] "s" []).2.2.2
     1 (by decide)⟩

end Voiceai
